import Mathlib

/-!
Verification development for the influencer-product matching core
(`src/matcher.py`, class `InfluencerMatcher`).

Shallow embedding conventions:
* Python strings are modelled as `List Char` (`Str`).  Character classes
  (`\w`, `\d`, `\s`, upper/lower case) are modelled at ASCII precision, with
  every code point above 127 treated as a word character (Python's unicode
  `\w` treats letters such as umlauts as word characters); this is the usual
  concession of a shallow embedding and is irrelevant to the concrete inputs
  used below, which are ASCII or lowercase literals.
* `pandas` cells are modelled as `Option Str` (`None` = missing/NaN); the
  string representation of a cell is taken as given, mirroring the code's
  `str(v)` stringification at the ingestion boundary.
* The fuzzy scorers come from the `thefuzz` package, which delegates to
  `rapidfuzz` and rounds the returned float: `ratio` is the normalized InDel
  similarity `2*LCS(a,b)/(|a|+|b|)*100`, `token_set_ratio` processes both
  inputs (non-word chars to spaces, lowercase, strip), splits them into
  sorted de-duplicated token sets and takes the best ratio among the joined
  intersection/combination strings, and the partial scorer returns the best
  ratio of the shorter string against the windows of the longer string of
  the shorter string's length.  Rounding is modelled as exact half-even
  rounding of the rational score.
-/

/-- Python strings as lists of characters. -/
abbrev Str := List Char

/-- Character list of a Lean string literal. -/
def chars (s : String) : Str := s.data

/-- Python `\s` (whitespace) at ASCII precision: space, tab, newline,
carriage return, vertical tab, form feed. -/
def isSpc (c : Char) : Bool :=
  c = ' ' || c = '\t' || c = '\n' || c = '\r' || c = '\x0b' || c = '\x0c'

/-- Python `\w` (word character): alphanumeric or underscore; code points
above 127 are treated as word characters (unicode letters). -/
def isWordChar (c : Char) : Bool :=
  c.isAlphanum || c = '_' || decide (127 < c.toNat)

/-- A character allowed inside an `@handle`: `[\w.]`. -/
def isWordDot (c : Char) : Bool := isWordChar c || c = '.'

/-- Python `str.lower` (ASCII precision). -/
def toLowerStr (s : Str) : Str := s.map Char.toLower

/-- Python `str.strip`: drop whitespace from both ends. -/
def stripStr (s : Str) : Str :=
  (((s.dropWhile isSpc).reverse).dropWhile isSpc).reverse

/-- `re.sub(r'\s+', ' ', s)`: collapse every whitespace run to one space. -/
def collapseWs : Str → Str
  | [] => []
  | [c] => if isSpc c then [' '] else [c]
  | c₁ :: c₂ :: cs =>
    if isSpc c₁ && isSpc c₂ then collapseWs (c₂ :: cs)
    else (if isSpc c₁ then ' ' else c₁) :: collapseWs (c₂ :: cs)

/-- Python `str.split()` (no separator): whitespace-delimited tokens,
no empty tokens. -/
def splitStep (c : Char) (acc : Str × List Str) : Str × List Str :=
  if isSpc c then ([], if acc.1 = [] then acc.2 else acc.1 :: acc.2)
  else (c :: acc.1, acc.2)

def splitWs (s : Str) : List Str :=
  let r := s.foldr splitStep ([], [])
  if r.1 = [] then r.2 else r.1 :: r.2

/-- First line of a string: the text before the first newline
(`s.split('\n')[0]`). -/
def firstLine (s : Str) : Str := s.takeWhile (fun c => c ≠ '\n')

/-- Does the whole (lowercased, stripped) string match `^@[\w.]+$`, i.e. is
it a single handle-only token? -/
def isHandleOnly : Str → Bool
  | '@' :: rest => !rest.isEmpty && rest.all isWordDot
  | _ => false

/-- `re.sub(r'@[\w.]+', '', s)`: delete each `@` that is followed by at
least one `[\w.]` character together with the maximal such run.  The fuel
argument (instantiated with the string length) bounds the left-to-right
scan. -/
def removeHandlesAux : Nat → Str → Str
  | 0, s => s
  | _ + 1, [] => []
  | n + 1, c :: cs =>
    if c = '@' then
      let run := cs.takeWhile isWordDot
      if run.isEmpty then '@' :: removeHandlesAux n cs
      else removeHandlesAux n (cs.drop run.length)
    else c :: removeHandlesAux n cs

def removeHandles (s : Str) : Str := removeHandlesAux s.length s

/-- `re.sub(r'@', ' ', s)`: replace every remaining `@` by a space. -/
def atToSpace (s : Str) : Str := s.map (fun c => if c = '@' then ' ' else c)

/-- Is the character `k` or `m` (the regex `[km]` with `re.IGNORECASE`)? -/
def isKm (c : Char) : Bool := c = 'k' || c = 'm' || c = 'K' || c = 'M'

/-- Word-boundary test after `[km]`: the match succeeds only if the next
character is absent or not a word character (`\b`). -/
def boundaryOk : Str → Bool
  | [] => true
  | c :: _ => !isWordChar c

/-- Length of the match of `\d+[.,]?\d*\s*[km]\b` starting at the head of
`s`, if any.  Greedy matching is exact here: any backtracking inside the
digit run is equivalent to the greedy split, and when the optional `[.,]`
is present but the continuation fails, the alternative without it also
fails (the next character is then `.` or `,`, which neither `\s*` nor
`[km]` accepts). -/
def followerMatchLen (s : Str) : Option Nat :=
  let d₁ := s.takeWhile Char.isDigit
  if d₁.isEmpty then none
  else
    match s.drop d₁.length with
    | [] => none
    | c :: r₂ =>
      if c = '.' || c = ',' then
        let d₂ := r₂.takeWhile Char.isDigit
        let r₃ := r₂.drop d₂.length
        let sp := r₃.takeWhile isSpc
        match r₃.drop sp.length with
        | k :: rest =>
          if isKm k && boundaryOk rest then
            some (d₁.length + 1 + d₂.length + sp.length + 1)
          else none
        | [] => none
      else
        let sp := (c :: r₂).takeWhile isSpc
        match (c :: r₂).drop sp.length with
        | k :: rest =>
          if isKm k && boundaryOk rest then
            some (d₁.length + sp.length + 1)
          else none
        | [] => none

/-- `re.sub(r'\d+[.,]?\d*\s*[km]\b', '', s, flags=re.IGNORECASE)`:
left-to-right scan deleting each leftmost follower-count match and
continuing after it (a single pass, as `re.sub` performs). -/
def removeFollowersAux : Nat → Str → Str
  | 0, s => s
  | _ + 1, [] => []
  | n + 1, c :: cs =>
    match followerMatchLen (c :: cs) with
    | some L => removeFollowersAux n ((c :: cs).drop L)
    | none => c :: removeFollowersAux n cs

def removeFollowers (s : Str) : Str := removeFollowersAux s.length s

/-- `re.sub(r'\(.*?\)', '', s)`: non-greedy parenthetical removal.  A `(`
matches up to the first following `)` provided no newline intervenes
(`.` does not match `\n`); otherwise the `(` is kept and scanning resumes
with the next character. -/
def removeParensAux : Nat → Str → Str
  | 0, s => s
  | _ + 1, [] => []
  | n + 1, c :: cs =>
    if c = '(' then
      let body := cs.takeWhile (fun x => !(x = ')' || x = '\n'))
      match cs.drop body.length with
      | r :: rest => if r = ')' then removeParensAux n rest
                     else '(' :: removeParensAux n cs
      | [] => '(' :: removeParensAux n cs
    else c :: removeParensAux n cs

def removeParens (s : Str) : Str := removeParensAux s.length s

/-- `InfluencerMatcher._normalize_name` (src/matcher.py:178-190): lowercase
and strip; a handle-only token keeps the handle text with dots as spaces,
otherwise embedded handles are deleted and stray `@` become spaces; then
follower counts and parentheticals are removed and whitespace is
collapsed. -/
def normalize_name (name : Str) : Str :=
  let n₁ := stripStr (toLowerStr name)
  let n₂ :=
    if isHandleOnly n₁ then
      (n₁.drop 1).map (fun c => if c = '.' then ' ' else c)
    else
      atToSpace (removeHandles n₁)
  let n₃ := removeFollowers n₂
  let n₄ := removeParens n₃
  stripStr (collapseWs n₄)

/-! ### The `thefuzz` scorers (rapidfuzz-backed) -/

/-- Length of a longest common subsequence; the InDel distance underlying
rapidfuzz's `ratio` is `|a| + |b| - 2 * lcs a b`.  The fuel argument
(instantiated with `|a| + |b|`, which every recursive call keeps
sufficient) makes the recursion structural. -/
def lcsAux : Nat → Str → Str → Nat
  | 0, _, _ => 0
  | _ + 1, [], _ => 0
  | _ + 1, _ :: _, [] => 0
  | n + 1, a :: as, b :: bs =>
    if a = b then lcsAux n as bs + 1
    else max (lcsAux n (a :: as) bs) (lcsAux n as (b :: bs))

def lcs (a b : Str) : Nat := lcsAux (a.length + b.length) a b

/-- Python's `int(round(num/den))`: division rounded half to even. -/
def roundHE (num den : Nat) : Nat :=
  if 2 * (num % den) < den then num / den
  else if den < 2 * (num % den) then num / den + 1
  else if (num / den) % 2 = 0 then num / den
  else num / den + 1

/-- A similarity score as an unreduced fraction `(value*den, den)`:
`ratioFrac a b` represents `2*lcs(a,b)/(|a|+|b|) * 100`. -/
def ratioFrac (a b : Str) : Nat × Nat := (200 * lcs a b, a.length + b.length)

/-- The larger of two score fractions (cross multiplication). -/
def maxFrac (p q : Nat × Nat) : Nat × Nat :=
  if q.1 * p.2 ≤ p.1 * q.2 then p else q

/-- `fuzz.ratio` (thefuzz delegating to rapidfuzz, rounded): normalized
InDel similarity of the two raw strings. -/
def fuzzRatio (a b : Str) : Nat :=
  if a.isEmpty && b.isEmpty then 100
  else roundHE (200 * lcs a b) (a.length + b.length)

/-- `thefuzz.utils.full_process` (applied by `token_set_ratio`): drop
non-ASCII (force_ascii), replace each non-word character by a space,
lowercase, strip. -/
def full_process (s : Str) : Str :=
  stripStr (toLowerStr
    ((s.filter (fun c => decide (c.toNat < 128))).map
      (fun c => if isWordChar c then c else ' ')))

/-- Lexicographic (code-point) strict order on strings, as Python `<`. -/
def strLt : Str → Str → Bool
  | _, [] => false
  | [], _ :: _ => true
  | a :: as, b :: bs =>
    if a.toNat < b.toNat then true
    else if b.toNat < a.toNat then false
    else strLt as bs

/-- Insert into a sorted duplicate-free list, keeping it sorted and
duplicate-free. -/
def insertTok (x : Str) : List Str → List Str
  | [] => [x]
  | y :: ys =>
    if strLt x y then x :: y :: ys
    else if x = y then y :: ys
    else y :: insertTok x ys

/-- `sorted(set(tokens))`: sorted, de-duplicated token list. -/
def sortTokens (l : List Str) : List Str := l.foldl (fun acc t => insertTok t acc) []

/-- Join a token list with single spaces (`" ".join(l)`). -/
def joinSp : List Str → Str
  | [] => []
  | [t] => t
  | t :: ts => t ++ ' ' :: joinSp ts

/-- `fuzz.token_set_ratio` (thefuzz 0.2x semantics): full-process both
sides, build the sorted de-duplicated token sets, return 0 if either set
is empty, otherwise take the best normalized-InDel ratio among the joined
intersection and the two intersection+difference combinations, rounded
half to even. -/
def tokensOf (s : Str) : List Str := sortTokens (splitWs (full_process s))

/-- The non-degenerate branch of `token_set_ratio`, on the two sorted token
sets. -/
def tsrBody (ta tb : List Str) : Nat :=
  let sect := ta.filter (fun t => tb.contains t)
  let dab := ta.filter (fun t => !tb.contains t)
  let dba := tb.filter (fun t => !ta.contains t)
  let sectJ := joinSp sect
  let comb₁ := stripStr (sectJ ++ ' ' :: joinSp dab)
  let comb₂ := stripStr (sectJ ++ ' ' :: joinSp dba)
  let best := maxFrac (ratioFrac sectJ comb₁)
    (maxFrac (ratioFrac sectJ comb₂) (ratioFrac comb₁ comb₂))
  roundHE best.1 best.2

def token_set_ratio (s₁ s₂ : Str) : Nat :=
  if (tokensOf s₁).isEmpty || (tokensOf s₂).isEmpty then 0
  else tsrBody (tokensOf s₁) (tokensOf s₂)

/-- `fuzz.partial_ratio` (thefuzz delegating to rapidfuzz, no processing):
best normalized-InDel ratio of the shorter string against the windows of
the longer string having the shorter string's length; an empty side scores
0 unless both are empty. -/
def partialRatio (s₁ s₂ : Str) : Nat :=
  let sh := if s₁.length ≤ s₂.length then s₁ else s₂
  let lo := if s₁.length ≤ s₂.length then s₂ else s₁
  if sh.isEmpty then (if lo.isEmpty then 100 else 0)
  else
    let m := (List.range (lo.length - sh.length + 1)).foldl
      (fun acc t => max acc (lcs sh ((lo.drop t).take sh.length))) 0
    roundHE (200 * m) (sh.length + sh.length)

/-! ### Data model: the collaboration map and the static product catalog -/

/-- An insertion-ordered map, as a Python `dict`: lookup finds the first
(unique) matching key, a new key is appended at the end, and key iteration
follows this order. -/
abbrev Dict (α : Type) := List (Str × α)

def alistGet {α : Type} : Dict α → Str → Option α
  | [], _ => none
  | (k', v) :: rest, k => if k' = k then some v else alistGet rest k

def alistGetD {α : Type} (m : Dict α) (k : Str) (d : α) : α :=
  (alistGet m k).getD d

def alistKeys {α : Type} (m : Dict α) : List Str := m.map (fun e => e.1)

/-- `if name not in d: d[name] = []` followed by `d[name].extend(ps)`:
append to an existing key's list in place, or append a new entry at the
end. -/
def addProducts : Dict (List Str) → Str → List Str → Dict (List Str)
  | [], k, ps => [(k, ps)]
  | (k', vs) :: rest, k, ps =>
    if k' = k then (k', vs ++ ps) :: rest
    else (k', vs) :: addProducts rest k ps

/-- `list(set(l))` where only membership and emptiness matter downstream:
de-duplication keeping first occurrences (the Python set's iteration order
is hash-dependent; no verified claim depends on the order of the
de-duplicated list). -/
def dedupKeep : List Str → List Str
  | [] => []
  | x :: xs => if xs.contains x then dedupKeep xs else x :: dedupKeep xs

/-- Python set modelled as a list with membership-guarded insertion
(`set.update`); only used for the summary counts. -/
def setUpdate (s : List Str) (ps : List Str) : List Str :=
  ps.foldl (fun acc p => if acc.contains p then acc else acc ++ [p]) s

/-- Is the first string a prefix of the second? -/
def isPrefixL : Str → Str → Bool
  | [], _ => true
  | _ :: _, [] => false
  | a :: as, b :: bs => a = b && isPrefixL as bs

/-- Python `in` on strings: contiguous-substring containment. -/
def isSubStr (needle : Str) : Str → Bool
  | [] => needle.isEmpty
  | c :: cs => isPrefixL needle (c :: cs) || isSubStr needle cs

/-- `InfluencerMatcher.NAME_HEADER_PATTERNS` (src/matcher.py:19). -/
def NAME_HEADER_PATTERNS : List Str :=
  [chars "name", chars "ig name", chars "mit wem", chars "influencer", chars "person"]

/-- `InfluencerMatcher.product_patterns` (src/matcher.py:22-55): the static
product catalog mapping display names to keyword fragments. -/
def product_patterns : Dict (List Str) :=
  [ (chars "Rohkakao Peru", [chars "peru", chars "kakao peru", chars "rohkakao per"]),
    (chars "Rohkakao Ecuador", [chars "ecuador", chars "kakao ecuador", chars "ecu md", chars "ecu "]),
    (chars "Rohkakao Criollo", [chars "criollo"]),
    (chars "Kakao Nibs", [chars "nib", chars "nibs", chars "sweet nibs"]),
    (chars "Feel Good Kakao", [chars "feel good", chars "feelgood"]),
    (chars "Rise Up & Shine", [chars "rise up", chars "rise up & shine", chars "rise up and shine", chars " rus ", chars "rus "]),
    (chars "Calm Down & Relax", [chars "calm down", chars "calm down & relax", chars " cdr ", chars "cdr "]),
    (chars "The Wholy Bean", [chars "wholy bean"]),
    (chars "SinnPhonie", [chars "sinnphonie"]),
    (chars "Queen Beans", [chars "queen bean", chars "queen beans", chars " qb "]),
    (chars "Reishi", [chars "reishi"]),
    (chars "Lions Mane", [chars "lions mane", chars "lion mane", chars "lion's mane"]),
    (chars "Cordyceps", [chars "cordyceps"]),
    (chars "Chaga", [chars "chaga"]),
    (chars "Pure Power", [chars "pure power", chars " pp "]),
    (chars "Vitalpilz Extrakte", [chars "vitalpilzextra", chars "vitalpilz extra", chars "vitalpilz-extra", chars "pilzextrakt"]),
    (chars "Vitalpilz Kakao", [chars "vitalpilzkakao", chars "vitalpilz kakao", chars "vitalpilz-kakao"]),
    (chars "Coco Aminos", [chars "coco amino", chars "cocoamino", chars "würzsauce", chars "wuerzsauce", chars "gewürzbereitung"]),
    (chars "Ashwagandha", [chars "ashwagandha"]),
    (chars "Matcha", [chars "matcha"]),
    (chars "Chlorella", [chars "chlorella"]),
    (chars "Maca", [chars "maca"]),
    (chars "Lucuma", [chars "lucuma"]),
    (chars "Cashew Cluster", [chars "cashew cluster", chars "cluster"]),
    (chars "Peru Butter Drops", [chars "butter drops", chars "peru butter"]) ]

/-- A parsed tabular file (`pandas.DataFrame`): column headers and rows of
cells, a cell being missing (`NaN`) or its stringified text. -/
structure Frame where
  cols : List Str
  rows : List (List (Option Str))

/-- Result of `_read_file_with_encoding_fallback`: `none` models a file
that could not be read with any encoding (Excel failure or all CSV
encodings failing) and is skipped with a warning. -/
abbrev ParsedFile := Option Frame

/-- The data directory as seen through `Path.glob`: `none` models a
missing/unreadable directory, for which `pathlib` yields no entries at all
(its selector returns an empty iterator when the parent is not a
directory), `some fs` an existing directory with the files matched by the
glob patterns. -/
abbrev DataDir := Option (List ParsedFile)

def globFiles : DataDir → List ParsedFile
  | none => []
  | some fs => fs

/-- Matcher state (`__init__`, src/matcher.py:57-60): the collaboration
map and the set of all products seen. -/
structure MatcherState where
  collaboration_data : Dict (List Str)
  all_products : List Str

def initState : MatcherState := { collaboration_data := [], all_products := [] }

/-- `InfluencerMatcher._find_name_column` (src/matcher.py:96-130), step 1:
first column whose header (lowercased, stripped, first line only) contains
one of the name patterns. -/
def headerNameCol (cols : List Str) : Option Nat :=
  cols.findIdx? (fun col =>
    let cl := stripStr (firstLine (stripStr (toLowerStr col)))
    NAME_HEADER_PATTERNS.any (fun p => isSubStr p cl))

/-- Does the cell qualify as text for step 2: present, longer than 2 after
stripping, and containing a Latin letter (including German umlauts)?  The
code additionally requires `isinstance(val, str)`, which the cell model
already guarantees for present cells. -/
def isTextCell : Option Str → Bool
  | none => false
  | some v =>
    decide (2 < (stripStr v).length) &&
      v.any (fun c => c.isAlpha || (['ä','ö','ü','Ä','Ö','Ü','ß'].contains c))

/-- Step 2 of `_find_name_column`: among the first five columns, the first
column with the strictly largest count of qualifying text cells. -/
def bestTextCol (f : Frame) : Nat × Nat :=
  (List.range (min 5 f.cols.length)).foldl
    (fun (acc : Nat × Nat) i =>
      let cnt := (f.rows.map (fun row => row.getD i none)).countP isTextCell
      if acc.2 < cnt then (i, cnt) else acc)
    (0, 0)

/-- `InfluencerMatcher._find_name_column` (src/matcher.py:96-130). -/
def find_name_column (f : Frame) : Nat :=
  match headerNameCol f.cols with
  | some i => i
  | none =>
    let bc := bestTextCol f
    if 0 < bc.2 then bc.1 else 0

/-- `InfluencerMatcher._extract_name_from_cell` (src/matcher.py:132-150):
missing or blank cells give the empty string, otherwise the first line of
the stripped text, stripped again. -/
def extract_name_from_cell : Option Str → Str
  | none => []
  | some v =>
    let text := stripStr v
    if text.isEmpty then [] else stripStr (firstLine text)

/-- `InfluencerMatcher._extract_products_from_row` (src/matcher.py:192-203):
join the present cells with spaces, lowercase, pad with one space on each
side, and tag every catalog product one of whose keywords occurs as a
substring. -/
def extract_products_from_row (row : List (Option Str)) : List Str :=
  let rowText := toLowerStr (joinSp (row.filterMap (fun c => c)))
  let padded := ' ' :: (rowText ++ [' '])
  (product_patterns.filter (fun e => e.2.any (fun kw => isSubStr kw padded))).map
    (fun e => e.1)

/-- The per-row step of `_load_single_file` (src/matcher.py:160-174):
normalize the name cell, skip rows whose normalized name is empty or
shorter than 3 characters, otherwise append the row's products to the
name's list and record them in the product set. -/
def loadRow (nameColIdx : Nat) (st : MatcherState) (row : List (Option Str)) :
    MatcherState :=
  let name := normalize_name (extract_name_from_cell (row.getD nameColIdx none))
  if name.length < 3 then st
  else
    let products := extract_products_from_row row
    { collaboration_data := addProducts st.collaboration_data name products,
      all_products := setUpdate st.all_products products }

/-- `InfluencerMatcher._load_single_file` (src/matcher.py:152-176):
unreadable and empty files contribute nothing; otherwise the name column
is located once and every row is folded into the state. -/
def load_single_file (st : MatcherState) (pf : ParsedFile) : MatcherState :=
  match pf with
  | none => st
  | some f =>
    if f.rows.isEmpty then st
    else f.rows.foldl (loadRow (find_name_column f)) st

/-- `InfluencerMatcher.load_collaboration_files` (src/matcher.py:62-72):
fold every globbed file into the current state.  Note that the existing
state is NOT cleared first. -/
def load_collaboration_files (st : MatcherState) (dir : DataDir) : MatcherState :=
  (globFiles dir).foldl load_single_file st

/-! ### Resolver and verifier -/

/-- The scan loop of `find_best_match` (src/matcher.py:211-215): track the
best (match, score) seen, updating when the score strictly exceeds the
best so far and reaches `min_score`. -/
def bestLoop (qn : Str) (min_score : Nat) :
    List Str → Option Str × Nat → Option Str × Nat
  | [], acc => acc
  | k :: ks, (bm, bs) =>
    let score := token_set_ratio qn k
    if bs < score ∧ min_score ≤ score then bestLoop qn min_score ks (some k, score)
    else bestLoop qn min_score ks (bm, bs)

/-- `InfluencerMatcher.find_best_match` (src/matcher.py:205-217).  The
final `if best_match` is Python truthiness: a `None` or empty-string match
yields `None`. -/
def find_best_match (data : Dict (List Str)) (name : Str)
    (min_score : Nat := 70) : Option (Str × Nat) :=
  match bestLoop (normalize_name name) min_score (alistKeys data) (none, 0) with
  | (some m, bs) => if m.isEmpty then none else some (m, bs)
  | (none, _) => none

/-- `InfluencerMatcher.get_products_for_influencer` (src/matcher.py:219-226). -/
def get_products_for_influencer (data : Dict (List Str)) (name : Str) :
    List Str :=
  match find_best_match data name with
  | none => []
  | some (m, _) => dedupKeep (alistGetD data m [])

/-- `InfluencerMatcher.verify_assignment`'s result dictionary (§3 of the
spec: the verification value object). -/
structure VerificationResult where
  status : Str
  message : Str
  matched_name : Option Str
  score : Nat
  products : List Str
  verified : Bool

def natChars (n : Nat) : Str := (Nat.repr n).data

def joinCommaSp : List Str → Str
  | [] => []
  | [t] => t
  | t :: ts => t ++ ',' :: ' ' :: joinCommaSp ts

/-- The result `verify_assignment` returns when resolution fails
(src/matcher.py:232-240). -/
def noDataResult : VerificationResult :=
  { status := chars "NO_DATA",
    message := chars "No collaboration history found",
    matched_name := none, score := 0, products := [], verified := false }

/-- The branch of `verify_assignment` taken once an identity is resolved
(src/matcher.py:242-278). -/
def verifyFound (data : Dict (List Str)) (assigned_product matched_name : Str)
    (score : Nat) : VerificationResult :=
  let products := alistGetD data matched_name []
  let unique_products := dedupKeep products
  let product_match := unique_products.any
    (fun p => 80 < partialRatio (toLowerStr assigned_product) (toLowerStr p))
  if product_match then
    { status := chars "VERIFIED",
      message := chars "✓ Product matches history (score: " ++ natChars score ++ chars ")",
      matched_name := some matched_name, score := score,
      products := unique_products, verified := true }
  else if !unique_products.isEmpty then
    { status := chars "MISMATCH",
      message := chars "⚠ Product not in history. Alternatives: " ++
        joinCommaSp (unique_products.take 3),
      matched_name := some matched_name, score := score,
      products := unique_products, verified := false }
  else
    { status := chars "NO_PRODUCTS",
      message := chars "Contact found but no product history",
      matched_name := some matched_name, score := score,
      products := [], verified := false }

/-- `InfluencerMatcher.verify_assignment` (src/matcher.py:228-278). -/
def verify_assignment (data : Dict (List Str)) (name : Str)
    (assigned_product : Str) : VerificationResult :=
  match find_best_match data name with
  | none => noDataResult
  | some (matched_name, score) => verifyFound data assigned_product matched_name score

/-- One output row of `batch_verify` (src/matcher.py:286-294). -/
structure BatchRow where
  name : Str
  assigned_product : Str
  status : Str
  verified : Bool
  match_score : Nat
  historical_products : Str
  message : Str

/-- The row built for one (name, product) pair. -/
def batchRowFor (data : Dict (List Str)) (name product : Str) : BatchRow :=
  let v := verify_assignment data name product
  { name := name, assigned_product := product, status := v.status,
    verified := v.verified, match_score := v.score,
    historical_products := joinCommaSp (v.products.take 5),
    message := v.message }

/-- `InfluencerMatcher.batch_verify` (src/matcher.py:280-296): the loop
appends one result row per assignment, in iteration order. -/
def batch_verify (data : Dict (List Str)) (assignments : List (Str × Str)) :
    List BatchRow :=
  assignments.foldl (fun results a => results ++ [batchRowFor data a.1 a.2]) []

/-! ### Spec-side status classifier and invariant predicates -/

/-- Status classifier following the words of the spec (§4.5): `NO_DATA` if
resolution fails; otherwise `VERIFIED` if some de-duplicated historical
product has partial similarity strictly above 80 to the assigned product;
otherwise `MISMATCH` if historical products exist; else `NO_PRODUCTS`. -/
def statusBySpec (data : Dict (List Str)) (name assigned_product : Str) : Str :=
  match find_best_match data name with
  | none => chars "NO_DATA"
  | some (m, _) =>
    let hist := dedupKeep (alistGetD data m [])
    if hist.any (fun p => 80 < partialRatio (toLowerStr assigned_product) (toLowerStr p)) then
      chars "VERIFIED"
    else if !hist.isEmpty then chars "MISMATCH"
    else chars "NO_PRODUCTS"

/-- Invariant (spec §3): every product identifier stored in the
collaboration map belongs to the static catalog. -/
def productsOk (st : MatcherState) : Prop :=
  ∀ k ps, alistGet st.collaboration_data k = some ps →
    ∀ p ∈ ps, p ∈ alistKeys product_patterns

/-- Invariant (spec §3/§4.2): every key of the collaboration map is the
normalization of some raw name and has length at least 3. -/
def keysOk (st : MatcherState) : Prop :=
  ∀ k ∈ alistKeys st.collaboration_data, 3 ≤ k.length ∧ ∃ raw, k = normalize_name raw

/-! ### Concrete fixtures used by witnesses and counterexamples -/

/-- A file whose two rows normalize to `"maria schmidt fitness"` and
`"maria schmidt"`, in that insertion order. -/
def c3Frame : Frame :=
  { cols := [chars "Name"],
    rows := [[some (chars "Maria Schmidt Fitness")], [some (chars "Maria Schmidt")]] }

def c3Data : Dict (List Str) :=
  (load_collaboration_files initState (some [some c3Frame])).collaboration_data

/-- A single-identity map with one zero-scoring query available. -/
def c2Data : Dict (List Str) := [(chars "abc", [])]

/-- A file with one row carrying a product mention. -/
def c5Frame : Frame :=
  { cols := [chars "Name", chars "Notes"],
    rows := [[some (chars "Jane Doe x"), some (chars "loves her peru cacao")]] }

def c7FrameA : Frame :=
  { cols := [chars "Name"], rows := [[some (chars "Alice Smith")]] }

def c7FrameB : Frame :=
  { cols := [chars "Name"], rows := [[some (chars "Bob Jones")]] }

/-! ### Helper lemmas: characters, rounding, LCS -/

theorem char_toNat_ofNat_valid (n : Nat) (h : n.isValidChar) :
    (Char.ofNat n).toNat = n := by
  rw [Char.ofNat, dif_pos h]; rfl

theorem uint32_le_char (a : Nat) (ha : a < UInt32.size) (c : Char) :
    ((UInt32.ofNat a) ≤ c.val) ↔ a ≤ c.toNat := by
  rw [UInt32.le_def]
  constructor
  · intro h
    have := BitVec.le_def.mp h
    simpa [UInt32.ofNat, BitVec.toNat_ofNat, Nat.mod_eq_of_lt ha] using this
  · intro h
    apply BitVec.le_def.mpr
    simpa [UInt32.ofNat, BitVec.toNat_ofNat, Nat.mod_eq_of_lt ha] using h

theorem char_le_uint32 (a : Nat) (ha : a < UInt32.size) (c : Char) :
    (c.val ≤ (UInt32.ofNat a)) ↔ c.toNat ≤ a := by
  rw [UInt32.le_def]
  constructor
  · intro h
    have := BitVec.le_def.mp h
    simpa [UInt32.ofNat, BitVec.toNat_ofNat, Nat.mod_eq_of_lt ha] using this
  · intro h
    apply BitVec.le_def.mpr
    simpa [UInt32.ofNat, BitVec.toNat_ofNat, Nat.mod_eq_of_lt ha] using h

theorem isUpper_iff (c : Char) : c.isUpper = true ↔ (65 ≤ c.toNat ∧ c.toNat ≤ 90) := by
  show ((decide (c.val ≥ 65) && decide (c.val ≤ 90)) = true) ↔ _
  rw [Bool.and_eq_true, decide_eq_true_iff, decide_eq_true_iff]
  exact and_congr (uint32_le_char 65 (by norm_num) c) (char_le_uint32 90 (by norm_num) c)

theorem isUpper_toLower (c : Char) : (Char.toLower c).isUpper = false := by
  show (if c.toNat ≥ 65 ∧ c.toNat ≤ 90 then Char.ofNat (c.toNat + 32) else c).isUpper = false
  split
  · next h =>
    have hv : (c.toNat + 32).isValidChar := Or.inl (by omega)
    have hval := char_toNat_ofNat_valid (c.toNat + 32) hv
    rw [Bool.eq_false_iff]
    intro hu
    have := (isUpper_iff _).mp hu
    omega
  · next h =>
    rw [Bool.eq_false_iff]
    intro hu
    have := (isUpper_iff _).mp hu
    omega

theorem lcsAux_self (n : Nat) : ∀ a : Str, a.length ≤ n → lcsAux n a a = a.length := by
  induction n with
  | zero =>
    intro a h
    have : a = [] := List.eq_nil_of_length_eq_zero (by omega)
    subst this
    rfl
  | succ n ih =>
    intro a h
    cases a with
    | nil => rfl
    | cons c cs =>
      simp only [lcsAux, List.length_cons]
      have hcs : cs.length ≤ n := by
        simp only [List.length_cons] at h
        omega
      simp [ih cs hcs]

theorem lcs_self (a : Str) : lcs a a = a.length := by
  unfold lcs
  exact lcsAux_self _ a (by omega)

theorem lcsAux_le_left (n : Nat) : ∀ a b : Str, lcsAux n a b ≤ a.length := by
  induction n with
  | zero => intro a b; exact Nat.zero_le _
  | succ n ih =>
    intro a b
    cases a with
    | nil => exact Nat.zero_le _
    | cons c cs =>
      cases b with
      | nil => exact Nat.zero_le _
      | cons d ds =>
        simp only [lcsAux, List.length_cons]
        split
        · have := ih cs ds
          omega
        · have h1 := ih (c :: cs) ds
          have h2 := ih cs (d :: ds)
          simp only [List.length_cons] at h1
          omega

theorem lcsAux_le_right (n : Nat) : ∀ a b : Str, lcsAux n a b ≤ b.length := by
  induction n with
  | zero => intro a b; exact Nat.zero_le _
  | succ n ih =>
    intro a b
    cases a with
    | nil => exact Nat.zero_le _
    | cons c cs =>
      cases b with
      | nil => exact Nat.zero_le _
      | cons d ds =>
        simp only [lcsAux, List.length_cons]
        split
        · have := ih cs ds
          omega
        · have h1 := ih (c :: cs) ds
          have h2 := ih cs (d :: ds)
          simp only [List.length_cons] at h2
          omega

theorem lcs_le_left (a b : Str) : lcs a b ≤ a.length := lcsAux_le_left _ a b

theorem lcs_le_right (a b : Str) : lcs a b ≤ b.length := lcsAux_le_right _ a b

theorem roundHE_le_100 (num den : Nat) (h : num ≤ 100 * den) :
    roundHE num den ≤ 100 := by
  rcases Nat.eq_zero_or_pos den with hd | hd
  · subst hd
    have : num = 0 := by omega
    subst this
    decide
  · have hmod := Nat.div_add_mod num den
    have hr : num % den < den := Nat.mod_lt _ hd
    by_cases hq : num / den ≤ 99
    · unfold roundHE
      split_ifs <;> omega
    · have hq2 : num / den ≤ 100 := by
        have h1 : num / den ≤ (100 * den) / den := Nat.div_le_div_right h
        rwa [Nat.mul_div_cancel _ hd] at h1
      have hq100 : num / den = 100 := by omega
      have hr0 : num % den = 0 := by
        rw [hq100] at hmod; omega
      unfold roundHE
      split_ifs <;> omega

theorem roundHE_perfect (n : Nat) (h : 0 < n) : roundHE (200 * n) (n + n) = 100 := by
  have h2 : (200 : Nat) * n = 100 * (n + n) := by ring
  have hq : (200 * n) / (n + n) = 100 := by
    rw [h2, Nat.mul_div_cancel _ (by omega)]
  have hr : (200 * n) % (n + n) = 0 := by
    rw [h2, Nat.mul_mod_left]
  unfold roundHE
  split_ifs <;> omega

theorem maxFrac_cases (p q : Nat × Nat) : maxFrac p q = p ∨ maxFrac p q = q := by
  unfold maxFrac
  split <;> simp

theorem ratioFrac_le (a b : Str) : (ratioFrac a b).1 ≤ 100 * (ratioFrac a b).2 := by
  have h1 := lcs_le_left a b
  have h2 := lcs_le_right a b
  simp only [ratioFrac]
  omega

theorem roundHE_maxFrac_le (p q r : Nat × Nat)
    (hp : p.1 ≤ 100 * p.2) (hq : q.1 ≤ 100 * q.2) (hr : r.1 ≤ 100 * r.2) :
    roundHE (maxFrac p (maxFrac q r)).1 (maxFrac p (maxFrac q r)).2 ≤ 100 := by
  rcases maxFrac_cases q r with h | h <;>
    rcases maxFrac_cases p (maxFrac q r) with h2 | h2 <;>
      rw [h2] <;> try rw [h]
  · exact roundHE_le_100 _ _ hp
  · exact roundHE_le_100 _ _ hq
  · exact roundHE_le_100 _ _ hp
  · exact roundHE_le_100 _ _ hr

theorem tsrBody_le_100 (ta tb : List Str) : tsrBody ta tb ≤ 100 :=
  roundHE_maxFrac_le _ _ _ (ratioFrac_le _ _) (ratioFrac_le _ _) (ratioFrac_le _ _)

theorem token_set_ratio_le_100 (s₁ s₂ : Str) : token_set_ratio s₁ s₂ ≤ 100 := by
  unfold token_set_ratio
  split
  · exact Nat.zero_le _
  · exact tsrBody_le_100 _ _

theorem token_set_ratio_nil_right (s : Str) : token_set_ratio s [] = 0 := by
  unfold token_set_ratio
  have h : (tokensOf []).isEmpty = true := rfl
  rw [h, Bool.or_true, if_pos rfl]

/-! ### Helper lemmas: tokens, joining, stripping -/

theorem headD_mem {α : Type} (l : List α) (d : α) (h : l ≠ []) : l.headD d ∈ l := by
  cases l with
  | nil => exact absurd rfl h
  | cons c cs => simp

theorem getLastD_cons_ne {α : Type} (c : α) (l : List α) (d : α) (h : l ≠ []) :
    (c :: l).getLastD d = l.getLastD d := by
  cases l with
  | nil => exact absurd rfl h
  | cons c₂ cs₂ => simp [List.getLastD_cons]

theorem getLastD_mem {α : Type} (l : List α) (d : α) (h : l ≠ []) : l.getLastD d ∈ l := by
  induction l with
  | nil => exact absurd rfl h
  | cons c cs ih =>
    cases cs with
    | nil => simp
    | cons c₂ cs₂ =>
      rw [getLastD_cons_ne c (c₂ :: cs₂) d (by simp)]
      exact List.mem_cons_of_mem _ (ih (by simp))

theorem getLastD_eq_headD_reverse {α : Type} (l : List α) (d : α) :
    l.getLastD d = (l.reverse).headD d := by
  rw [List.getLastD_eq_getLast?, List.headD_eq_head?, List.head?_reverse]

theorem getLastD_append_ne {α : Type} (l₁ l₂ : List α) (d : α) (h : l₂ ≠ []) :
    (l₁ ++ l₂).getLastD d = l₂.getLastD d := by
  induction l₁ with
  | nil => simp
  | cons c cs ih =>
    have hne : cs ++ l₂ ≠ [] := by
      intro habs
      rcases List.append_eq_nil.mp habs with ⟨_, h2⟩
      exact h h2
    rw [List.cons_append, getLastD_cons_ne _ _ _ hne, ih]

/-- Invariant of the `splitWs` accumulator: the pending token holds no
whitespace, and every finished token is nonempty and whitespace-free. -/
def splitAccOk (acc : Str × List Str) : Prop :=
  (∀ c ∈ acc.1, isSpc c = false) ∧
    ∀ t ∈ acc.2, t ≠ [] ∧ ∀ c ∈ t, isSpc c = false

theorem splitStep_ok (c : Char) (acc : Str × List Str) (h : splitAccOk acc) :
    splitAccOk (splitStep c acc) := by
  obtain ⟨h1, h2⟩ := h
  unfold splitStep
  by_cases hs : isSpc c = true
  · rw [if_pos hs]
    refine ⟨by simp, ?_⟩
    by_cases he : acc.1 = []
    · simpa [he] using h2
    · simp only [if_neg he]
      intro t ht
      rcases List.mem_cons.mp ht with rfl | ht
      · exact ⟨he, h1⟩
      · exact h2 t ht
  · rw [if_neg hs]
    refine ⟨?_, h2⟩
    intro c' hc'
    rcases List.mem_cons.mp hc' with rfl | hc'
    · exact Bool.eq_false_iff.mpr hs
    · exact h1 c' hc'

theorem foldr_splitStep_ok (s : Str) : splitAccOk (s.foldr splitStep ([], [])) := by
  induction s with
  | nil => exact ⟨by simp, by simp⟩
  | cons c cs ih => exact splitStep_ok c _ ih

theorem splitWs_facts (s : Str) :
    ∀ t ∈ splitWs s, t ≠ [] ∧ ∀ c ∈ t, isSpc c = false := by
  have h := foldr_splitStep_ok s
  unfold splitWs
  obtain ⟨h1, h2⟩ := h
  by_cases he : (s.foldr splitStep ([], [])).1 = []
  · rw [if_pos he]
    exact h2
  · rw [if_neg he]
    intro t ht
    rcases List.mem_cons.mp ht with rfl | ht
    · exact ⟨he, h1⟩
    · exact h2 t ht

theorem insertTok_ne_nil (t : Str) (acc : List Str) : insertTok t acc ≠ [] := by
  cases acc with
  | nil => simp [insertTok]
  | cons y ys =>
    unfold insertTok
    split_ifs <;> simp

theorem mem_insertTok (acc : List Str) (t x : Str) (h : x ∈ insertTok t acc) :
    x = t ∨ x ∈ acc := by
  induction acc with
  | nil => simpa [insertTok] using h
  | cons y ys ih =>
    unfold insertTok at h
    split_ifs at h
    · rcases List.mem_cons.mp h with rfl | h2
      · exact Or.inl rfl
      · exact Or.inr h2
    · exact Or.inr h
    · rcases List.mem_cons.mp h with rfl | h2
      · exact Or.inr (List.mem_cons_self _ _)
      · rcases ih h2 with h3 | h3
        · exact Or.inl h3
        · exact Or.inr (List.mem_cons_of_mem _ h3)

theorem mem_foldl_insertTok (l : List Str) :
    ∀ (acc : List Str) (x : Str),
      x ∈ l.foldl (fun a t => insertTok t a) acc → x ∈ acc ∨ x ∈ l := by
  induction l with
  | nil => intro acc x h; exact Or.inl h
  | cons t ts ih =>
    intro acc x h
    rcases ih (insertTok t acc) x h with h2 | h2
    · rcases mem_insertTok acc t x h2 with rfl | h3
      · exact Or.inr (List.mem_cons_self _ _)
      · exact Or.inl h3
    · exact Or.inr (List.mem_cons_of_mem _ h2)

theorem mem_sortTokens (l : List Str) (x : Str) (h : x ∈ sortTokens l) : x ∈ l := by
  rcases mem_foldl_insertTok l [] x h with h2 | h2
  · exact absurd h2 (List.not_mem_nil x)
  · exact h2

theorem foldl_insertTok_ne_nil (l : List Str) :
    ∀ acc : List Str, acc ≠ [] → l.foldl (fun a t => insertTok t a) acc ≠ [] := by
  induction l with
  | nil => intro acc h; exact h
  | cons t ts ih => intro acc _; exact ih (insertTok t acc) (insertTok_ne_nil t acc)

theorem sortTokens_ne_nil (l : List Str) (h : l ≠ []) : sortTokens l ≠ [] := by
  cases l with
  | nil => exact absurd rfl h
  | cons t ts => exact foldl_insertTok_ne_nil ts (insertTok t []) (insertTok_ne_nil t [])

theorem joinSp_facts (L : List Str)
    (htok : ∀ t ∈ L, t ≠ [] ∧ ∀ c ∈ t, isSpc c = false) (hne : L ≠ []) :
    joinSp L ≠ [] ∧ isSpc ((joinSp L).headD ' ') = false ∧
      isSpc ((joinSp L).getLastD ' ') = false := by
  induction L with
  | nil => exact absurd rfl hne
  | cons t ts ih =>
    obtain ⟨ht1, ht2⟩ := htok t (List.mem_cons_self _ _)
    cases ts with
    | nil =>
      refine ⟨ht1, ?_, ?_⟩
      · exact ht2 _ (headD_mem t ' ' ht1)
      · exact ht2 _ (getLastD_mem t ' ' ht1)
    | cons t₂ ts₂ =>
      have hrec := ih (fun u hu => htok u (List.mem_cons_of_mem _ hu)) (by simp)
      obtain ⟨hj1, hj2, hj3⟩ := hrec
      have hjoin : joinSp (t :: t₂ :: ts₂) = t ++ ' ' :: joinSp (t₂ :: ts₂) := rfl
      obtain ⟨c, cs, rfl⟩ := List.exists_cons_of_ne_nil ht1
      refine ⟨by simp [hjoin], ?_, ?_⟩
      · simpa [hjoin] using ht2 c (List.mem_cons_self _ _)
      · rw [hjoin, List.cons_append, getLastD_cons_ne _ _ _ (by simp),
          getLastD_append_ne _ _ _ (by simp), getLastD_cons_ne _ _ _ hj1]
        exact hj3

theorem stripStr_sandwich (j : Str) (hne : j ≠ [])
    (hh : isSpc (j.headD ' ') = false) (hl : isSpc (j.getLastD ' ') = false) :
    stripStr (j ++ [' ']) = j := by
  obtain ⟨c, cs, rfl⟩ := List.exists_cons_of_ne_nil hne
  have hc : isSpc c = false := by simpa using hh
  unfold stripStr
  rw [List.cons_append, List.dropWhile_cons, hc]
  simp only [Bool.false_eq_true, if_false]
  rw [← List.cons_append, List.reverse_append, List.reverse_singleton,
    List.singleton_append, List.dropWhile_cons]
  simp only [show isSpc ' ' = true from rfl, if_true]
  have hrev : (c :: cs).reverse ≠ [] := by simp
  obtain ⟨e, es, hds⟩ := List.exists_cons_of_ne_nil hrev
  have he : isSpc e = false := by
    have h1 : (c :: cs).getLastD ' ' = e := by
      rw [getLastD_eq_headD_reverse, hds]
      rfl
    rw [← h1]
    exact hl
  rw [hds, List.dropWhile_cons, he]
  simp only [Bool.false_eq_true, if_false]
  rw [← hds, List.reverse_reverse]

theorem tsrBody_self (ta : List Str) (h0 : ta ≠ [])
    (htok : ∀ t ∈ ta, t ≠ [] ∧ ∀ c ∈ t, isSpc c = false) : tsrBody ta ta = 100 := by
  have hsect : ta.filter (fun t => ta.contains t) = ta :=
    List.filter_eq_self.mpr (fun a ha => List.elem_eq_true_of_mem ha)
  have hdab : ta.filter (fun t => !ta.contains t) = [] :=
    List.filter_eq_nil_iff.mpr (fun a ha => by simpa using ha)
  obtain ⟨hj1, hj2, hj3⟩ := joinSp_facts ta htok h0
  have hcomb : stripStr (joinSp ta ++ ' ' :: joinSp ([] : List Str)) = joinSp ta := by
    show stripStr (joinSp ta ++ [' ']) = joinSp ta
    exact stripStr_sandwich _ hj1 hj2 hj3
  simp only [tsrBody]
  rw [hsect, hdab, hcomb]
  have hJ : ratioFrac (joinSp ta) (joinSp ta) =
      (200 * (joinSp ta).length, (joinSp ta).length + (joinSp ta).length) := by
    simp [ratioFrac, lcs_self]
  have hmax : maxFrac (ratioFrac (joinSp ta) (joinSp ta))
      (maxFrac (ratioFrac (joinSp ta) (joinSp ta)) (ratioFrac (joinSp ta) (joinSp ta))) =
      ratioFrac (joinSp ta) (joinSp ta) := by
    unfold maxFrac
    split <;> rfl
  rw [hmax, hJ]
  exact roundHE_perfect _ (List.length_pos.mpr hj1)

theorem token_set_ratio_self (k : Str) (h : splitWs (full_process k) ≠ []) :
    token_set_ratio k k = 100 := by
  have hta : tokensOf k ≠ [] := sortTokens_ne_nil _ h
  have hempty : (tokensOf k).isEmpty = false := by
    exact Bool.eq_false_iff.mpr (fun habs => hta (List.isEmpty_iff.mp habs))
  unfold token_set_ratio
  rw [hempty]
  simp only [Bool.or_self, Bool.false_eq_true, if_false]
  exact tsrBody_self (tokensOf k) hta
    (fun t ht => splitWs_facts (full_process k) t (mem_sortTokens _ t ht))

/-! ### The resolver scan loop -/

theorem bestLoop_q (qn : Str) (ms : Nat) :
    ∀ (ks : List Str) (bm : Option Str) (bs : Nat),
      (bestLoop qn ms ks (bm, bs) = (bm, bs) ∧
        ∀ k ∈ ks, token_set_ratio qn k ≤ bs ∨ token_set_ratio qn k < ms)
      ∨ (∃ m pre post, ks = pre ++ m :: post ∧
          bestLoop qn ms ks (bm, bs) = (some m, token_set_ratio qn m) ∧
          ms ≤ token_set_ratio qn m ∧ bs < token_set_ratio qn m ∧
          (∀ k ∈ pre, token_set_ratio qn k ≤ bs ∨ token_set_ratio qn k < ms ∨
            token_set_ratio qn k < token_set_ratio qn m) ∧
          (∀ k ∈ post, token_set_ratio qn k ≤ token_set_ratio qn m ∨
            token_set_ratio qn k < ms)) := by
  intro ks
  induction ks with
  | nil => intro bm bs; exact Or.inl ⟨rfl, by simp⟩
  | cons k ks ih =>
    intro bm bs
    by_cases hc : bs < token_set_ratio qn k ∧ ms ≤ token_set_ratio qn k
    · have hstep : bestLoop qn ms (k :: ks) (bm, bs) =
          bestLoop qn ms ks (some k, token_set_ratio qn k) := by
        simp only [bestLoop]
        rw [if_pos hc]
      rcases ih (some k) (token_set_ratio qn k) with ⟨heq, hall⟩ |
        ⟨m, pre, post, hks, heq, hms, hlt, hpre, hpost⟩
      · refine Or.inr ⟨k, [], ks, rfl, ?_, hc.2, hc.1, by simp, hall⟩
        rw [hstep, heq]
      · refine Or.inr ⟨m, k :: pre, post, by rw [hks]; rfl, ?_, hms, ?_, ?_, hpost⟩
        · rw [hstep, heq]
        · have := hc.1
          omega
        · intro k' hk'
          rcases List.mem_cons.mp hk' with rfl | hk'
          · exact Or.inr (Or.inr hlt)
          · rcases hpre k' hk' with h | h | h
            · exact Or.inr (Or.inr (by omega))
            · exact Or.inr (Or.inl h)
            · exact Or.inr (Or.inr h)
    · have hstep : bestLoop qn ms (k :: ks) (bm, bs) = bestLoop qn ms ks (bm, bs) := by
        simp only [bestLoop]
        rw [if_neg hc]
      rcases ih bm bs with ⟨heq, hall⟩ | ⟨m, pre, post, hks, heq, hms, hlt, hpre, hpost⟩
      · refine Or.inl ⟨by rw [hstep, heq], ?_⟩
        intro k' hk'
        rcases List.mem_cons.mp hk' with rfl | hk'
        · rcases not_and_or.mp hc with h | h
          · exact Or.inl (Nat.le_of_not_lt h)
          · exact Or.inr (Nat.lt_of_not_le h)
        · exact hall k' hk'
      · refine Or.inr ⟨m, k :: pre, post, by rw [hks]; rfl, by rw [hstep, heq], hms, hlt, ?_, hpost⟩
        intro k' hk'
        rcases List.mem_cons.mp hk' with rfl | hk'
        · rcases not_and_or.mp hc with h | h
          · exact Or.inl (Nat.le_of_not_lt h)
          · exact Or.inr (Or.inl (Nat.lt_of_not_le h))
        · exact hpre k' hk'

/-- C2 (amended): with a positive `min_score`, the resolver returns `none`
exactly when no stored identity reaches `min_score`, and otherwise the
first maximum-scoring identity in iteration order, with its score. -/
theorem find_best_match_spec (data : Dict (List Str)) (q : Str) (ms : Nat)
    (h1 : 1 ≤ ms) :
    (find_best_match data q ms = none →
      ∀ k ∈ alistKeys data, token_set_ratio (normalize_name q) k < ms)
    ∧ (∀ m s, find_best_match data q ms = some (m, s) →
        s = token_set_ratio (normalize_name q) m ∧ ms ≤ s ∧
        ∃ pre post, alistKeys data = pre ++ m :: post ∧
          (∀ k ∈ pre, token_set_ratio (normalize_name q) k < s) ∧
          (∀ k ∈ post, token_set_ratio (normalize_name q) k ≤ s)) := by
  rcases bestLoop_q (normalize_name q) ms (alistKeys data) none 0 with ⟨heq, hall⟩ |
    ⟨m, pre, post, hks, heq, hms, hlt, hpre, hpost⟩
  · have hfind : find_best_match data q ms = none := by
      unfold find_best_match
      rw [heq]
    constructor
    · intro _ k hk
      rcases hall k hk with h | h
      · omega
      · exact h
    · intro m s h'
      rw [hfind] at h'
      exact absurd h' (by simp)
  · have hmne : m ≠ [] := by
      intro habs
      rw [habs, token_set_ratio_nil_right] at hms
      omega
    have hmE : m.isEmpty = false := by
      cases m with
      | nil => exact absurd rfl hmne
      | cons _ _ => rfl
    have hfind : find_best_match data q ms =
        some (m, token_set_ratio (normalize_name q) m) := by
      unfold find_best_match
      rw [heq]
      simp [hmE]
    constructor
    · intro habs
      rw [hfind] at habs
      exact absurd habs (by simp)
    · intro m' s' h'
      rw [hfind] at h'
      injection h' with hinj
      injection hinj with hm' hs'
      subst hm'
      subst hs'
      refine ⟨rfl, hms, pre, post, hks, ?_, ?_⟩
      · intro k hk
        rcases hpre k hk with h | h | h
        · omega
        · omega
        · exact h
      · intro k hk
        rcases hpost k hk with h | h
        · exact h
        · omega

/-- C3 (amended): querying with a key of the map whose normalization is
itself and whose processed token set is non-empty yields an identity with
score 100 (the first such in iteration order, not necessarily the queried
key). -/
theorem exact_key_query_scores_100 (data : Dict (List Str)) (k : Str)
    (h1 : k ∈ alistKeys data) (h2 : normalize_name k = k)
    (h3 : splitWs (full_process k) ≠ []) :
    ∃ m, m ∈ alistKeys data ∧ find_best_match data k 70 = some (m, 100) := by
  have hself : token_set_ratio (normalize_name k) k = 100 := by
    rw [h2]
    exact token_set_ratio_self k h3
  rcases bestLoop_q (normalize_name k) 70 (alistKeys data) none 0 with ⟨heq, hall⟩ |
    ⟨m, pre, post, hks, heq, hms, hlt, hpre, hpost⟩
  · exfalso
    rcases hall k h1 with h | h <;> (rw [hself] at h; omega)
  · have hb : token_set_ratio (normalize_name k) m ≤ 100 := token_set_ratio_le_100 _ _
    have hm100 : token_set_ratio (normalize_name k) m = 100 := by
      rcases List.mem_append.mp (hks ▸ h1) with hkpre | hkrest
      · rcases hpre k hkpre with h | h | h <;> (rw [hself] at h; omega)
      · rcases List.mem_cons.mp hkrest with rfl | hkpost
        · exact hself
        · rcases hpost k hkpost with h | h <;> (rw [hself] at h; omega)
    have hmne : m ≠ [] := by
      intro habs
      rw [habs, token_set_ratio_nil_right] at hm100
      omega
    have hmE : m.isEmpty = false := by
      cases m with
      | nil => exact absurd rfl hmne
      | cons _ _ => rfl
    refine ⟨m, ?_, ?_⟩
    · rw [hks]
      exact List.mem_append.mpr (Or.inr (List.mem_cons_self _ _))
    · unfold find_best_match
      rw [heq]
      simp [hmE, hm100]

/-- C2 (counterexample): with `min_score = 0` and a map holding the single
identity `"abc"`, every stored identity trivially scores at least 0, yet a
query normalizing to the empty string makes the resolver return `none`. -/
theorem find_best_match_zero_min_score_counterexample :
    find_best_match c2Data (chars "@@@") 0 = none ∧
      (chars "abc") ∈ alistKeys c2Data := by decide

/-- C3 (counterexample): `"maria schmidt"` is a key of the map built from
`c3Frame`, but querying it returns the earlier-iterated key
`"maria schmidt fitness"` (whose token set is a superset, also scoring
100), not the queried identity. -/
theorem exact_key_query_shadowed_counterexample :
    (chars "maria schmidt") ∈ alistKeys c3Data ∧
      find_best_match c3Data (chars "maria schmidt") =
        some (chars "maria schmidt fitness", 100) ∧
      chars "maria schmidt fitness" ≠ chars "maria schmidt" := by decide

/-- C4 (code evaluated at the failing input): `normalize_name` is not
idempotent — the parenthetical removal runs after the follower-count
removal, so it can create a fresh follower-count token that only a second
pass would delete. -/
theorem normalize_name_not_idempotent_at_input :
    normalize_name (chars "1(x)k") = chars "1k" ∧
      normalize_name (normalize_name (chars "1(x)k")) ≠
        normalize_name (chars "1(x)k") := by decide

/-- C7 (counterexample): a second `load_collaboration_files` call on the
same matcher instance keeps the key loaded by the first call, unlike a
fresh instance loading only the second batch. -/
theorem load_merges_counterexample :
    alistGet (load_collaboration_files (load_collaboration_files initState
        (some [some c7FrameA])) (some [some c7FrameB])).collaboration_data
      (chars "alice smith") = some [] ∧
    alistGet (load_collaboration_files initState
        (some [some c7FrameB])).collaboration_data
      (chars "alice smith") = none := by decide

/-- C8 (counterexample): a missing data directory is not an error and is
indistinguishable from an empty directory — both leave the state as it
was, producing an empty collaboration map; no failure value exists. -/
theorem missing_dir_no_error_counterexample :
    load_collaboration_files initState none = initState ∧
      load_collaboration_files initState (some []) = initState :=
  ⟨rfl, rfl⟩

/-! ### Structural theorems about the verifier and batch verification -/

/-- C1: the status returned by `verify_assignment` is exactly the spec's
four-way classification. -/
theorem verify_assignment_status_matches_spec (data : Dict (List Str))
    (name product : Str) :
    (verify_assignment data name product).status = statusBySpec data name product := by
  unfold verify_assignment statusBySpec
  cases h : find_best_match data name with
  | none => rfl
  | some ms =>
    obtain ⟨m, s⟩ := ms
    simp only [verifyFound]
    split
    · rfl
    · split <;> rfl

/-- C10: `verified` is true exactly on `VERIFIED`, and `matched_name` is
non-null exactly when the status is not `NO_DATA`. -/
theorem verify_result_field_coherence (data : Dict (List Str))
    (name product : Str) :
    ((verify_assignment data name product).verified = true ↔
      (verify_assignment data name product).status = chars "VERIFIED") ∧
    ((verify_assignment data name product).matched_name ≠ none ↔
      (verify_assignment data name product).status ≠ chars "NO_DATA") := by
  unfold verify_assignment
  cases h : find_best_match data name with
  | none =>
    refine ⟨?_, ?_⟩
    · show false = true ↔ chars "NO_DATA" = chars "VERIFIED"
      decide
    · show ¬(none : Option Str) = none ↔ ¬chars "NO_DATA" = chars "NO_DATA"
      decide
  | some ms =>
    obtain ⟨m, s⟩ := ms
    show ((verifyFound data product m s).verified = true ↔
        (verifyFound data product m s).status = chars "VERIFIED") ∧
      ((verifyFound data product m s).matched_name ≠ none ↔
        (verifyFound data product m s).status ≠ chars "NO_DATA")
    simp only [verifyFound]
    split
    · refine ⟨⟨fun _ => rfl, fun _ => rfl⟩, ⟨?_, ?_⟩⟩
      · intro _
        show ¬chars "VERIFIED" = chars "NO_DATA"
        decide
      · intro _
        show ¬(some m : Option Str) = none
        simp
    · split
      · refine ⟨⟨?_, ?_⟩, ⟨?_, ?_⟩⟩
        · intro hh
          have hh2 : (false : Bool) = true := hh
          exact absurd hh2 (by decide)
        · intro hh
          have hh2 : chars "MISMATCH" = chars "VERIFIED" := hh
          exact absurd hh2 (by decide)
        · intro _
          show ¬chars "MISMATCH" = chars "NO_DATA"
          decide
        · intro _
          show ¬(some m : Option Str) = none
          simp
      · refine ⟨⟨?_, ?_⟩, ⟨?_, ?_⟩⟩
        · intro hh
          have hh2 : (false : Bool) = true := hh
          exact absurd hh2 (by decide)
        · intro hh
          have hh2 : chars "NO_PRODUCTS" = chars "VERIFIED" := hh
          exact absurd hh2 (by decide)
        · intro _
          show ¬chars "NO_PRODUCTS" = chars "NO_DATA"
          decide
        · intro _
          show ¬(some m : Option Str) = none
          simp

theorem foldl_append_map {α β : Type} (f : α → β) (l : List α) :
    ∀ acc : List β, l.foldl (fun r a => r ++ [f a]) acc = acc ++ l.map f := by
  induction l with
  | nil => intro acc; simp
  | cons a as ih =>
    intro acc
    simp only [List.foldl_cons, List.map_cons]
    rw [ih]
    simp

/-- C6: batch verification maps each input pair independently to one row,
preserving count and order, and every row carries one of the four
classified statuses (no pair is dropped, no failure value exists). -/
theorem batch_verify_complete_ordered_independent (data : Dict (List Str))
    (l : List (Str × Str)) :
    batch_verify data l = l.map (fun a => batchRowFor data a.1 a.2) ∧
    (batch_verify data l).length = l.length ∧
    (∀ i : Nat, (batch_verify data l).get? i =
      (l.get? i).map (fun a => batchRowFor data a.1 a.2)) ∧
    (∀ name product : Str,
      (verify_assignment data name product).status = chars "NO_DATA" ∨
      (verify_assignment data name product).status = chars "VERIFIED" ∨
      (verify_assignment data name product).status = chars "MISMATCH" ∨
      (verify_assignment data name product).status = chars "NO_PRODUCTS") := by
  have hmap : batch_verify data l = l.map (fun a => batchRowFor data a.1 a.2) := by
    unfold batch_verify
    rw [foldl_append_map]
    simp
  refine ⟨hmap, by rw [hmap]; simp, ?_, ?_⟩
  · intro i
    rw [hmap, List.get?_map]
  · intro name product
    unfold verify_assignment
    cases h : find_best_match data name with
    | none => exact Or.inl rfl
    | some ms =>
      obtain ⟨m, s⟩ := ms
      show (verifyFound data product m s).status = chars "NO_DATA" ∨
        (verifyFound data product m s).status = chars "VERIFIED" ∨
        (verifyFound data product m s).status = chars "MISMATCH" ∨
        (verifyFound data product m s).status = chars "NO_PRODUCTS"
      simp only [verifyFound]
      split
      · exact Or.inr (Or.inl rfl)
      · split
        · exact Or.inr (Or.inr (Or.inl rfl))
        · exact Or.inr (Or.inr (Or.inr rfl))

/-- C8 (amended): ingestion never fails; a missing directory yields no
files (exactly like an empty one) and an unreadable file is skipped. -/
theorem ingestion_total_missing_as_empty (st : MatcherState) (fs : List ParsedFile) :
    load_collaboration_files st none = st ∧
    load_collaboration_files st (some []) = st ∧
    load_collaboration_files st (some (none :: fs)) =
      load_collaboration_files st (some fs) :=
  ⟨rfl, rfl, rfl⟩

/-! ### Ingestion: merge behavior and invariants -/

theorem alistGet_addProducts (m : Dict (List Str)) (k : Str) (ps : List Str) :
    ∀ k' : Str, alistGet (addProducts m k ps) k' =
      if k = k' then some (alistGetD m k [] ++ ps) else alistGet m k' := by
  induction m with
  | nil =>
    intro k'
    simp only [addProducts, alistGet, alistGetD]
    by_cases h : k = k'
    · rw [if_pos h, if_pos h]
      simp
    · rw [if_neg h, if_neg h]
  | cons e rest ih =>
    intro k'
    obtain ⟨k₀, v⟩ := e
    simp only [addProducts]
    by_cases h0 : k₀ = k
    · rw [if_pos h0]
      subst h0
      by_cases h1 : k₀ = k'
      · subst h1
        simp [alistGet, alistGetD]
      · simp [alistGet, alistGetD, h1]
    · rw [if_neg h0]
      by_cases h1 : k₀ = k'
      · subst h1
        have hkk : ¬k₀ = k := h0
        have hkk2 : ¬k = k₀ := fun hh => hkk hh.symm
        simp [alistGet, alistGetD, hkk2, hkk]
      · simp only [alistGet, if_neg h1]
        rw [ih k']
        by_cases h2 : k = k'
        · rw [if_pos h2, if_pos h2]
          simp [alistGetD, alistGet, if_neg h0]
        · rw [if_neg h2, if_neg h2]

theorem loadRow_extends (i : Nat) (st : MatcherState) (row : List (Option Str))
    (k : Str) (ps : List Str)
    (h : alistGet st.collaboration_data k = some ps) :
    ∃ qs, alistGet (loadRow i st row).collaboration_data k = some (ps ++ qs) := by
  simp only [loadRow]
  split
  · exact ⟨[], by simp [h]⟩
  · simp only []
    rw [alistGet_addProducts]
    by_cases hk : normalize_name (extract_name_from_cell (row.getD i none)) = k
    · rw [if_pos hk]
      refine ⟨extract_products_from_row row, ?_⟩
      rw [hk]
      simp [alistGetD, h]
    · rw [if_neg hk]
      exact ⟨[], by simp [h]⟩

theorem foldl_loadRow_extends (i : Nat) (rows : List (List (Option Str))) :
    ∀ (st : MatcherState) (k : Str) (ps : List Str),
      alistGet st.collaboration_data k = some ps →
      ∃ qs, alistGet ((rows.foldl (loadRow i) st)).collaboration_data k =
        some (ps ++ qs) := by
  induction rows with
  | nil => intro st k ps h; exact ⟨[], by simp [h]⟩
  | cons row rest ih =>
    intro st k ps h
    obtain ⟨q₁, h₁⟩ := loadRow_extends i st row k ps h
    obtain ⟨q₂, h₂⟩ := ih (loadRow i st row) k (ps ++ q₁) h₁
    exact ⟨q₁ ++ q₂, by rw [List.foldl_cons, h₂, List.append_assoc]⟩

theorem load_single_file_extends (pf : ParsedFile) (st : MatcherState)
    (k : Str) (ps : List Str)
    (h : alistGet st.collaboration_data k = some ps) :
    ∃ qs, alistGet (load_single_file st pf).collaboration_data k = some (ps ++ qs) := by
  cases pf with
  | none => exact ⟨[], by simp [load_single_file, h]⟩
  | some f =>
    show ∃ qs, alistGet (if f.rows.isEmpty then st
        else f.rows.foldl (loadRow (find_name_column f)) st).collaboration_data k =
      some (ps ++ qs)
    split
    · exact ⟨[], by simp [h]⟩
    · exact foldl_loadRow_extends _ _ st k ps h

theorem foldl_files_extends (fs : List ParsedFile) :
    ∀ (st : MatcherState) (k : Str) (ps : List Str),
      alistGet st.collaboration_data k = some ps →
      ∃ qs, alistGet ((fs.foldl load_single_file st)).collaboration_data k =
        some (ps ++ qs) := by
  induction fs with
  | nil => intro st k ps h; exact ⟨[], by simp [h]⟩
  | cons pf rest ih =>
    intro st k ps h
    obtain ⟨q₁, h₁⟩ := load_single_file_extends pf st k ps h
    obtain ⟨q₂, h₂⟩ := ih (load_single_file st pf) k (ps ++ q₁) h₁
    exact ⟨q₁ ++ q₂, by rw [List.foldl_cons, h₂, List.append_assoc]⟩

/-- C7 (amended): `load_collaboration_files` merges into the existing map
rather than rebuilding it: every existing entry survives a further load
call, with later products appended; a fresh map therefore requires a new
matcher instance. -/
theorem load_preserves_existing_entries (st : MatcherState) (dir : DataDir)
    (k : Str) (ps : List Str)
    (h : alistGet st.collaboration_data k = some ps) :
    ∃ qs, alistGet (load_collaboration_files st dir).collaboration_data k =
      some (ps ++ qs) := by
  cases dir with
  | none => exact ⟨[], by simp [load_collaboration_files, globFiles, h]⟩
  | some fs => exact foldl_files_extends fs st k ps h

/-- C7 (witness): applying the merge theorem to the state left by a first
load call and a concrete second batch. -/
theorem load_preserves_existing_entries_witness :
    ∃ qs, alistGet (load_collaboration_files
        (load_collaboration_files initState (some [some c7FrameA]))
        (some [some c7FrameB])).collaboration_data
      (chars "alice smith") = some ([] ++ qs) :=
  load_preserves_existing_entries _ (some [some c7FrameB])
    (chars "alice smith") [] (by decide)

theorem mem_alistKeys_addProducts (m : Dict (List Str)) (k : Str) (ps : List Str) :
    ∀ k', k' ∈ alistKeys (addProducts m k ps) → k' ∈ alistKeys m ∨ k' = k := by
  induction m with
  | nil =>
    intro k' h
    simp only [addProducts, alistKeys, List.map_cons, List.map_nil] at h
    rcases List.mem_cons.mp h with rfl | h2
    · exact Or.inr rfl
    · exact absurd h2 (List.not_mem_nil _)
  | cons e rest ih =>
    obtain ⟨k₀, v⟩ := e
    intro k' h
    simp only [addProducts] at h
    by_cases h0 : k₀ = k
    · rw [if_pos h0] at h
      simp only [alistKeys, List.map_cons] at h ⊢
      rcases List.mem_cons.mp h with rfl | h2
      · exact Or.inl (List.mem_cons_self _ _)
      · exact Or.inl (List.mem_cons_of_mem _ h2)
    · rw [if_neg h0] at h
      simp only [alistKeys, List.map_cons] at h ⊢
      rcases List.mem_cons.mp h with rfl | h2
      · exact Or.inl (List.mem_cons_self _ _)
      · rcases ih k' h2 with h3 | h3
        · exact Or.inl (List.mem_cons_of_mem _ h3)
        · exact Or.inr h3

theorem extract_products_subset (row : List (Option Str)) :
    ∀ p ∈ extract_products_from_row row, p ∈ alistKeys product_patterns := by
  intro p hp
  simp only [extract_products_from_row, List.mem_map] at hp
  obtain ⟨e, he, rfl⟩ := hp
  unfold alistKeys
  exact List.mem_map.mpr ⟨e, List.mem_of_mem_filter he, rfl⟩

theorem loadRow_inv (i : Nat) (st : MatcherState) (row : List (Option Str))
    (h : productsOk st ∧ keysOk st) :
    productsOk (loadRow i st row) ∧ keysOk (loadRow i st row) := by
  obtain ⟨h1, h2⟩ := h
  simp only [loadRow]
  split
  · exact ⟨h1, h2⟩
  · next hlen =>
    constructor
    · unfold productsOk
      dsimp only
      intro k ps hget p hp
      rw [alistGet_addProducts] at hget
      split at hget
      · next hk =>
        injection hget with hget
        subst hget
        rcases List.mem_append.mp hp with hp2 | hp2
        · rcases hold : alistGet st.collaboration_data
              (normalize_name (extract_name_from_cell (row.getD i none))) with _ | old
          · rw [alistGetD, hold] at hp2
            exact absurd hp2 (List.not_mem_nil _)
          · rw [alistGetD, hold] at hp2
            exact h1 _ old hold p hp2
        · exact extract_products_subset row p hp2
      · exact h1 k ps hget p hp
    · unfold keysOk
      dsimp only
      intro k hk
      rcases mem_alistKeys_addProducts st.collaboration_data _ _ k hk with h3 | h3
      · exact h2 k h3
      · refine ⟨?_, extract_name_from_cell (row.getD i none), h3⟩
        rw [h3]
        omega

theorem foldl_preserves {σ α : Type} (Inv : σ → Prop) (f : σ → α → σ)
    (hf : ∀ s a, Inv s → Inv (f s a)) :
    ∀ (l : List α) (s : σ), Inv s → Inv (l.foldl f s) := by
  intro l
  induction l with
  | nil => intro s h; exact h
  | cons a as ih => intro s h; exact ih (f s a) (hf s a h)

theorem load_single_file_inv (st : MatcherState) (pf : ParsedFile)
    (h : productsOk st ∧ keysOk st) :
    productsOk (load_single_file st pf) ∧ keysOk (load_single_file st pf) := by
  cases pf with
  | none => exact h
  | some f =>
    show productsOk (if f.rows.isEmpty then st
        else f.rows.foldl (loadRow (find_name_column f)) st) ∧
      keysOk (if f.rows.isEmpty then st
        else f.rows.foldl (loadRow (find_name_column f)) st)
    split
    · exact h
    · exact foldl_preserves _ _ (loadRow_inv (find_name_column f)) f.rows st h

/-- C5: after any sequence of ingestion calls, every stored product
belongs to the static catalog and every key is a normalized name of
length at least 3. -/
theorem collaboration_map_invariant (dirs : List DataDir) :
    productsOk (dirs.foldl load_collaboration_files initState) ∧
    keysOk (dirs.foldl load_collaboration_files initState) := by
  refine foldl_preserves (fun st => productsOk st ∧ keysOk st)
    load_collaboration_files ?_ dirs initState ⟨?_, ?_⟩
  · intro st dir hst
    unfold load_collaboration_files
    exact foldl_preserves _ _ load_single_file_inv (globFiles dir) st hst
  · intro k ps hget
    exact absurd hget (by simp [initState, alistGet])
  · intro k hk
    exact absurd hk (by simp [initState, alistKeys])

/-- C5 (witness): the invariant applied to a concrete ingestion run. -/
theorem collaboration_map_invariant_witness :
    (chars "Rohkakao Peru") ∈ alistKeys product_patterns ∧
      3 ≤ (chars "jane doe x").length :=
  ⟨(collaboration_map_invariant [some [some c5Frame]]).1 (chars "jane doe x")
      [chars "Rohkakao Peru"] (by decide) (chars "Rohkakao Peru") (by decide),
    ((collaboration_map_invariant [some [some c5Frame]]).2 (chars "jane doe x")
      (by decide)).1⟩

/-! ### Normalizer output character classes -/

theorem mem_stripStr (s : Str) (c : Char) (h : c ∈ stripStr s) : c ∈ s := by
  unfold stripStr at h
  have h1 : c ∈ (s.dropWhile isSpc).reverse.dropWhile isSpc := List.mem_reverse.mp h
  have h2 : c ∈ (s.dropWhile isSpc).reverse := List.Sublist.mem h1 (List.dropWhile_sublist _)
  have h3 : c ∈ s.dropWhile isSpc := List.mem_reverse.mp h2
  exact List.Sublist.mem h3 (List.dropWhile_sublist _)

theorem mem_collapseWs : ∀ (l : Str) (c : Char), c ∈ collapseWs l → c ∈ l ∨ c = ' ' := by
  intro l
  induction l with
  | nil => intro c h; exact absurd h (List.not_mem_nil _)
  | cons c₁ tail ih =>
    intro c h
    cases tail with
    | nil =>
      simp only [collapseWs] at h
      split at h
      · exact Or.inr (by simpa using h)
      · exact Or.inl (by simpa using h)
    | cons c₂ cs =>
      simp only [collapseWs] at h
      split at h
      · rcases ih c h with h2 | h2
        · exact Or.inl (List.mem_cons_of_mem _ h2)
        · exact Or.inr h2
      · rcases List.mem_cons.mp h with rfl | h2
        · split
          · exact Or.inr rfl
          · exact Or.inl (List.mem_cons_self _ _)
        · rcases ih c h2 with h3 | h3
          · exact Or.inl (List.mem_cons_of_mem _ h3)
          · exact Or.inr h3

theorem removeFollowersAux_sublist : ∀ (n : Nat) (s : Str),
    (removeFollowersAux n s).Sublist s := by
  intro n
  induction n with
  | zero => intro s; exact List.Sublist.refl s
  | succ n ih =>
    intro s
    cases s with
    | nil => exact List.Sublist.refl []
    | cons c cs =>
      simp only [removeFollowersAux]
      cases hm : followerMatchLen (c :: cs) with
      | some L =>
        exact List.Sublist.trans (ih _) (List.drop_sublist _ _)
      | none =>
        exact List.Sublist.cons₂ c (ih cs)

theorem removeParensAux_sublist : ∀ (n : Nat) (s : Str),
    (removeParensAux n s).Sublist s := by
  intro n
  induction n with
  | zero => intro s; exact List.Sublist.refl s
  | succ n ih =>
    intro s
    cases s with
    | nil => exact List.Sublist.refl []
    | cons c cs =>
      simp only [removeParensAux]
      by_cases hc : c = '('
      · subst hc
        rw [if_pos rfl]
        split
        · next r rest2 heq =>
          split
          · next hr =>
            have hrest : rest2 = cs.drop
                ((cs.takeWhile (fun x => !(x = ')' || x = '\n'))).length + 1) := by
              have h2 := List.tail_drop cs
                ((cs.takeWhile (fun x => !(x = ')' || x = '\n'))).length)
              rw [heq] at h2
              exact h2
            refine List.Sublist.cons '(' ?_
            refine List.Sublist.trans (ih rest2) ?_
            rw [hrest]
            exact List.drop_sublist _ _
          · exact List.Sublist.cons₂ _ (ih cs)
        · exact List.Sublist.cons₂ _ (ih cs)
      · rw [if_neg hc]
        exact List.Sublist.cons₂ c (ih cs)

theorem removeHandlesAux_sublist : ∀ (n : Nat) (s : Str),
    (removeHandlesAux n s).Sublist s := by
  intro n
  induction n with
  | zero => intro s; exact List.Sublist.refl s
  | succ n ih =>
    intro s
    cases s with
    | nil => exact List.Sublist.refl []
    | cons c cs =>
      simp only [removeHandlesAux]
      by_cases hc : c = '@'
      · subst hc
        rw [if_pos rfl]
        split
        · exact List.Sublist.cons₂ _ (ih cs)
        · exact List.Sublist.cons _ (List.Sublist.trans (ih _) (List.drop_sublist _ _))
      · rw [if_neg hc]
        exact List.Sublist.cons₂ c (ih cs)

theorem mem_atToSpace (s : Str) (c : Char) (h : c ∈ atToSpace s) :
    c ≠ '@' ∧ (c ∈ s ∨ c = ' ') := by
  unfold atToSpace at h
  obtain ⟨a, ha, hfa⟩ := List.mem_map.mp h
  by_cases ha2 : a = '@'
  · subst ha2
    rw [if_pos rfl] at hfa
    subst hfa
    exact ⟨by decide, Or.inr rfl⟩
  · rw [if_neg ha2] at hfa
    subst hfa
    exact ⟨ha2, Or.inl ha⟩

theorem not_isUpper_toLowerStr (s : Str) (c : Char) (h : c ∈ toLowerStr s) :
    c.isUpper = false := by
  obtain ⟨a, _, hfa⟩ := List.mem_map.mp h
  rw [← hfa]
  exact isUpper_toLower a

theorem isHandleOnly_parts (l : Str) (h : isHandleOnly l = true) :
    ∃ rest, l = '@' :: rest ∧ rest.all isWordDot = true := by
  cases l with
  | nil => exact absurd h (by decide)
  | cons c₀ cs₀ =>
    unfold isHandleOnly at h
    split at h
    · next rest heq =>
      have hc : c₀ = '@' := (List.cons.inj heq).1
      have hcs : cs₀ = rest := (List.cons.inj heq).2
      subst hc
      refine ⟨cs₀, rfl, ?_⟩
      rw [hcs]
      exact ((Bool.and_eq_true _ _).mp h).2
    · exact absurd h (by decide)

/-- C9: the normalizer's output contains no `@` and no (ASCII) uppercase
letter. -/
theorem normalize_name_output_no_at_no_upper (s : Str) (c : Char)
    (h : c ∈ normalize_name s) : c ≠ '@' ∧ c.isUpper = false := by
  simp only [normalize_name] at h
  have h4 := mem_stripStr _ _ h
  rcases mem_collapseWs _ _ h4 with h5 | h5
  · have h6 := List.Sublist.mem h5 (removeParensAux_sublist _ _)
    have h7 := List.Sublist.mem h6 (removeFollowersAux_sublist _ _)
    by_cases hb : isHandleOnly (stripStr (toLowerStr s)) = true
    · rw [if_pos hb] at h7
      obtain ⟨rest, hrest, hall⟩ := isHandleOnly_parts _ hb
      rw [hrest] at h7
      obtain ⟨a, ha, hfa⟩ := List.mem_map.mp (by simpa using h7)
      have haWD : isWordDot a = true := by
        have := List.all_eq_true.mp hall a ha
        simpa using this
      have haUp : a.isUpper = false := by
        have h9 : a ∈ stripStr (toLowerStr s) := by
          rw [hrest]
          exact List.mem_cons_of_mem _ ha
        exact not_isUpper_toLowerStr s a (mem_stripStr _ _ h9)
      by_cases hdot : a = '.'
      · rw [if_pos hdot] at hfa
        subst hfa
        exact ⟨by decide, by decide⟩
      · rw [if_neg hdot] at hfa
        subst hfa
        refine ⟨?_, haUp⟩
        intro habs
        rw [habs] at haWD
        exact absurd haWD (by decide)
    · rw [if_neg hb] at h7
      obtain ⟨hne, hin⟩ := mem_atToSpace _ _ h7
      refine ⟨hne, ?_⟩
      rcases hin with hin | hin
      · have h8 := List.Sublist.mem hin (removeHandlesAux_sublist _ _)
        exact not_isUpper_toLowerStr s c (mem_stripStr _ _ h8)
      · rw [hin]
        decide
  · rw [h5]
    exact ⟨by decide, by decide⟩

/-! ### Witnesses instantiating the hypothesis-bearing theorems -/

/-- C2 (witness): the resolver specification applied at a concrete map,
query and threshold. -/
theorem find_best_match_spec_witness :
    (find_best_match c2Data (chars "abc") 70 = none →
      ∀ k ∈ alistKeys c2Data, token_set_ratio (normalize_name (chars "abc")) k < 70)
    ∧ (∀ m s, find_best_match c2Data (chars "abc") 70 = some (m, s) →
        s = token_set_ratio (normalize_name (chars "abc")) m ∧ 70 ≤ s ∧
        ∃ pre post, alistKeys c2Data = pre ++ m :: post ∧
          (∀ k ∈ pre, token_set_ratio (normalize_name (chars "abc")) k < s) ∧
          (∀ k ∈ post, token_set_ratio (normalize_name (chars "abc")) k ≤ s)) :=
  find_best_match_spec c2Data (chars "abc") 70 (by decide)

/-- C3 (witness): querying the ingested key `"maria schmidt"` yields some
identity scoring 100. -/
theorem exact_key_query_scores_100_witness :
    ∃ m, m ∈ alistKeys c3Data ∧
      find_best_match c3Data (chars "maria schmidt") 70 = some (m, 100) :=
  exact_key_query_scores_100 c3Data (chars "maria schmidt")
    (by decide) (by decide) (by decide)

/-- C9 (witness): a character of a concrete normalized output. -/
theorem normalize_name_output_no_at_no_upper_witness :
    'j' ≠ '@' ∧ ('j').isUpper = false :=
  normalize_name_output_no_at_no_upper (chars "@Jane.Doe") 'j' (by decide)

/-- End-to-end sanity check (spec §8): a verified assignment against an
ingested file. -/
theorem matcher_end_to_end_scenario :
    (verify_assignment (load_collaboration_files initState
        (some [some c5Frame])).collaboration_data
      (chars "Jane Doe x") (chars "Rohkakao Peru")).status = chars "VERIFIED" := by
  decide
